import Mathlib

set_option maxHeartbeats 1000000

/-! Shallow embedding of the feedback synthesizer text pipeline
translated from feedback_synthesizer.py: the categorizer, the theme
extractor, the two text filters and the quote selector. Strings are
modelled as lists of characters (ASCII-wise), and the Python regular
expressions of the source are unfolded into explicit character scans. -/

abbrev Str := List Char

/-- Python str.lower, character-wise (ASCII model). -/
def toLower (s : Str) : Str := s.map Char.toLower

/-- Python substring membership test, needle in hay. -/
def containsSub (needle hay : Str) : Bool :=
  (List.range (hay.length + 1)).any (fun i => needle.isPrefixOf (hay.drop i))

/-- Python whitespace class (backslash-s of the re module, ASCII model). -/
def isPySpace (c : Char) : Bool :=
  c == ' ' || c == '\t' || c == '\n' || c == '\r' || c == '\x0b' || c == '\x0c'

/-- Python str.strip of whitespace at both ends. -/
def stripChars (s : Str) : Str :=
  ((s.dropWhile isPySpace).reverse.dropWhile isPySpace).reverse

/-- Python regex word character (backslash-w, ASCII model). -/
def isWordChar (c : Char) : Bool :=
  c.isAlpha || c.isDigit || c == '_'

structure Issue where
  number : Nat
  title : Str
  body : Str
  labels : List Str
deriving DecidableEq

inductive Category where
  | bug
  | feature_request
  | ux_confusion
  | documentation
  | other
deriving DecidableEq

inductive Confidence where
  | high
  | medium
  | low
deriving DecidableEq

structure CategorizedIssue where
  issue : Issue
  category : Category
  confidence : Confidence
deriving DecidableEq

/-- Keyword list of category bug in CATEGORY_KEYWORDS. -/
def bugKeywords : List Str :=
  (["bug", "error", "crash", "broken", "fail", "not working", "doesn\x27t work",
    "issue", "problem", "exception", "traceback", "unexpected", "wrong"]).map String.data

/-- Keyword list of category feature_request in CATEGORY_KEYWORDS. -/
def featureKeywords : List Str :=
  (["feature", "request", "add", "support", "would be nice", "suggestion",
    "enhance", "improvement", "could you", "please add", "wish", "proposal"]).map String.data

/-- Keyword list of category ux_confusion in CATEGORY_KEYWORDS. -/
def uxKeywords : List Str :=
  (["confusing", "unclear", "how do i", "how to", "don\x27t understand",
    "unexpected behavior", "intuitive", "ux", "user experience", "hard to"]).map String.data

/-- Keyword list of category documentation in CATEGORY_KEYWORDS. -/
def docKeywords : List Str :=
  (["doc", "documentation", "readme", "example", "tutorial", "guide",
    "instructions", "typo", "clarify", "explain"]).map String.data

/-- The CATEGORY_KEYWORDS table, in declaration order. -/
def CATEGORY_KEYWORDS : List (Category × List Str) :=
  [(Category.bug, bugKeywords),
   (Category.feature_request, featureKeywords),
   (Category.ux_confusion, uxKeywords),
   (Category.documentation, docKeywords)]

/-- The label_mapping table of categorize_issue, in declaration order. -/
def label_mapping : List (Str × Category) :=
  [(("bug").data, Category.bug),
   (("feature").data, Category.feature_request),
   (("enhancement").data, Category.feature_request),
   (("documentation").data, Category.documentation),
   (("docs").data, Category.documentation),
   (("question").data, Category.ux_confusion)]

/-- The label loop of categorize_issue: lower-case every label, and for the
first label containing a mapping key (keys in declaration order) return the
mapped category. -/
def findLabelMatch (labels : List Str) : Option Category :=
  (labels.map toLower).findSome? (fun label =>
    label_mapping.findSome? (fun m =>
      if containsSub m.1 label then some m.2 else none))

/-- Number of keywords of one list occurring as a substring of the text. -/
def keywordScore (kws : List Str) (text : Str) : Nat :=
  kws.countP (fun k => containsSub k text)

/-- The text scanned by the keyword fallback: title, a space, body, lower-cased. -/
def concatText (issue : Issue) : Str :=
  toLower (issue.title ++ ' ' :: issue.body)

/-- categorize_issue from the source: label shortcut, then keyword scoring. -/
def categorize_issue (issue : Issue) : CategorizedIssue :=
  match findLabelMatch issue.labels with
  | some c => ⟨issue, c, Confidence.high⟩
  | none =>
    let text := concatText issue
    let scores := CATEGORY_KEYWORDS.map (fun p => (p.1, keywordScore p.2 text))
    let max_score := (scores.map Prod.snd).foldl Nat.max 0
    if 0 < max_score then
      ⟨issue,
       ((scores.find? (fun p => p.2 == max_score)).map Prod.fst).getD Category.other,
       if 3 ≤ max_score then Confidence.high
       else if 2 ≤ max_score then Confidence.medium
       else Confidence.low⟩
    else ⟨issue, Category.other, Confidence.low⟩

/-- categorize_all_issues from the source. -/
def categorize_all_issues (issues : List Issue) : List CategorizedIssue :=
  issues.map categorize_issue

example :
    categorize_issue ⟨1, ("Crash on startup").data, [], [("bug").data, ("needs-triage").data]⟩
      = ⟨⟨1, ("Crash on startup").data, [], [("bug").data, ("needs-triage").data]⟩,
         Category.bug, Confidence.high⟩ := by decide

example :
    (categorize_issue ⟨2, ("Could you add support for dark mode").data, [], []⟩).category
      = Category.feature_request := by decide

/-- Head of the list satisfies the predicate. -/
def headIs (p : Char → Bool) : Str → Bool
  | [] => false
  | c :: _ => p c

/-- Maximal runs of characters satisfying p, in order, other characters dropped. -/
def runsBy (p : Char → Bool) : Str → List Str
  | [] => []
  | c :: cs =>
    if p c then
      if headIs p cs then
        match runsBy p cs with
        | r :: rs => (c :: r) :: rs
        | [] => [[c]]
      else [c] :: runsBy p cs
    else runsBy p cs

/-- The findall of the title tokenizer: word-boundary-delimited runs of at
least 4 lower-case letters, which are the maximal word-character runs made
of lower-case letters only, of length at least 4. -/
def reTokens (text : Str) : List Str :=
  (runsBy isWordChar text).filter (fun r => decide (4 ≤ r.length) && r.all Char.isLower)

/-- The stopword set of extract_themes_by_category, as a list. -/
def stopwords : List Str :=
  (["the", "a", "an", "is", "are", "was", "were", "be", "been", "being",
    "have", "has", "had", "do", "does", "did", "will", "would", "could",
    "should", "may", "might", "must", "shall", "can", "need", "to", "of",
    "in", "for", "on", "with", "at", "by", "from", "as", "into", "through",
    "during", "before", "after", "above", "below", "between", "under",
    "again", "further", "then", "once", "here", "there", "when", "where",
    "why", "how", "all", "each", "few", "more", "most", "other", "some",
    "such", "no", "nor", "not", "only", "own", "same", "so", "than", "too",
    "very", "just", "and", "but", "if", "or", "because", "until", "while",
    "this", "that", "these", "those", "i", "me", "my", "myself", "we", "our",
    "you", "your", "he", "him", "his", "she", "her", "it", "its", "they",
    "them", "their", "what", "which", "who", "whom", "claude", "code", "use",
    "using", "used", "get", "got", "like", "also", "see", "try", "trying",
    "want", "work", "works", "working", "issue", "error", "file", "files",
    "version", "root", "context", "traceback", "path", "directory", "command",
    "terminal", "output", "line", "node", "python", "bash", "shell", "sudo",
    "stderr", "stdout", "debug", "info", "warn", "fatal", "stack", "trace",
    "exception", "null", "undefined", "true", "false", "none", "string",
    "number", "object", "array", "function", "module", "import", "export",
    "const", "return", "async", "await", "process", "system", "user", "users",
    "home", "local", "global", "package", "packages", "install", "installed",
    "https", "github", "anthropic", "anthropics", "existing", "searched",
    "checked", "confirm", "expected", "actual", "behavior", "steps", "reproduce",
    "environment", "operating", "logs", "relevant", "additional", "information",
    "feature", "request", "feat", "enhancement", "critical", "minor", "major"]).map String.data

/-- Tokens of one title: lower-case, findall, drop stopwords. -/
def tokenize_title (title : Str) : List Str :=
  (reTokens (toLower title)).filter (fun w => !stopwords.contains w)

/-- One Counter update step: bump the count of w, or append a fresh entry. -/
def tallyInsert (acc : List (Str × Nat)) (w : Str) : List (Str × Nat) :=
  if acc.any (fun p => p.1 == w) then
    acc.map (fun p => if p.1 == w then (p.1, p.2 + 1) else p)
  else acc ++ [(w, 1)]

/-- Counter of a word list, entries in first-occurrence order. -/
def tally (ws : List Str) : List (Str × Nat) :=
  ws.foldl tallyInsert []

/-- Stable insert for a descending sort by a numeric key: the element is
placed before the first element of key not larger, so an earlier element
precedes later elements of equal key. -/
def insertByKeyDesc {α : Type} (key : α → Nat) (x : α) : List α → List α
  | [] => [x]
  | y :: ys => if key y ≤ key x then x :: y :: ys else y :: insertByKeyDesc key x ys

/-- Stable sort by descending numeric key, as Python list.sort with a key
and reverse set: order by key descending, ties keep original order. -/
def sortByKeyDesc {α : Type} (key : α → Nat) : List α → List α
  | [] => []
  | x :: xs => insertByKeyDesc key x (sortByKeyDesc key xs)

/-- Counter.most_common of Python 3.7 and later: stable sort by descending
count (ties keep first-occurrence order), then take n. -/
def most_common (counts : List (Str × Nat)) (n : Nat) : List (Str × Nat) :=
  (sortByKeyDesc Prod.snd counts).take n

/-- One step of the category grouping dict of extract_themes_by_category. -/
def groupInsert (acc : List (Category × List CategorizedIssue)) (item : CategorizedIssue) :
    List (Category × List CategorizedIssue) :=
  if acc.any (fun g => g.1 == item.category) then
    acc.map (fun g => if g.1 == item.category then (g.1, g.2 ++ [item]) else g)
  else acc ++ [(item.category, [item])]

/-- Grouping of categorized issues by category, keys in first-seen order. -/
def groupByCategory (categorized_issues : List CategorizedIssue) :
    List (Category × List CategorizedIssue) :=
  categorized_issues.foldl groupInsert []

/-- Theme pairs of one category group: count tokens over all titles of the
group, take the top 5 by count, keep counts of at least 2, cap at 3. -/
def category_themes_pairs (items : List CategorizedIssue) : List (Str × Nat) :=
  let ws := items.flatMap (fun it => tokenize_title it.issue.title)
  ((most_common (tally ws) 5).filter (fun p => 2 ≤ p.2)).take 3

/-- Display string of a theme pair, word (count). -/
def format_theme (w : Str) (n : Nat) : Str :=
  w ++ (" (").data ++ (Nat.repr n).data ++ (")").data

/-- extract_themes_by_category from the source; categories with no
qualifying theme are omitted from the result. -/
def extract_themes_by_category (categorized_issues : List CategorizedIssue) :
    List (Category × List Str) :=
  (groupByCategory categorized_issues).filterMap (fun g =>
    let pairs := category_themes_pairs g.2
    if pairs.isEmpty then none
    else some (g.1, pairs.map (fun p => format_theme p.1 p.2)))

/-- Tokens as the claim of the spec words them: maximal alphabetic runs of
length at least 4 of the lower-cased title, stopwords removed. Stated for
comparison with tokenize_title, which follows the source regex. -/
def specAlphaTokens (title : Str) : List Str :=
  ((runsBy Char.isAlpha (toLower title)).filter (fun r => decide (4 ≤ r.length))).filter
    (fun w => !stopwords.contains w)

example : tokenize_title (("Parser crash42night on startup").data)
    = [("parser").data, ("startup").data] := by decide

example : specAlphaTokens (("Parser crash42night on startup").data)
    = [("parser").data, ("crash").data, ("night").data, ("startup").data] := by decide

/-- Start markers whose presence at line start makes is_template_line true. -/
def templateMarkers : List Str :=
  (["**", "###", "##", "#", "---", "```", "- [", "- [x]", "* ["]).map String.data

/-- Python str.startswith with a tuple of options. -/
def startsWithAny (ps : List Str) (s : Str) : Bool :=
  ps.any (fun p => p.isPrefixOf s)

/-- The template_phrases table of is_template_line. -/
def template_phrases : List Str :=
  (["preflight checklist", "i have searched", "i have checked",
    "bug report", "feature request", "describe the bug",
    "steps to reproduce", "expected behavior", "actual behavior",
    "screenshots", "additional context", "environment",
    "operating system", "version:", "node version", "npm version",
    "to reproduce", "relevant log", "checklist"]).map String.data

/-- Start markers of code-or-log lines in is_template_line. -/
def codeLineMarkers : List Str :=
  (["/", "at ", "Error:", "TypeError", "SyntaxError"]).map String.data

/-- The key-value regex of is_template_line: letters or spaces, a colon,
optional whitespace, then at least one non-whitespace character. The first
colon of the line is the only split the regex can use, since the leading
character set holds letters and whitespace only. -/
def keyValueMatch (line : Str) : Bool :=
  let pre := line.takeWhile (fun c => c != ':')
  match line.drop pre.length with
  | [] => false
  | _ :: rest =>
    !pre.isEmpty && pre.all (fun c => c.isAlpha || isPySpace c) &&
      rest.any (fun c => !isPySpace c)

/-- is_template_line from the source. -/
def is_template_line (line : Str) : Bool :=
  let l := stripChars line
  if l.isEmpty then true
  else if startsWithAny templateMarkers l then true
  else if template_phrases.any (fun p => containsSub p (toLower l)) then true
  else if keyValueMatch l && decide (l.length < 80) then true
  else if startsWithAny codeLineMarkers l then true
  else false

/-- The sentiment_words table of score_quote_sentiment. -/
def sentiment_words : List (Str × Nat) :=
  [(("frustrated").data, 3), (("frustrating").data, 3), (("annoying").data, 3),
   (("annoyed").data, 3),
   (("love").data, 3), (("great").data, 2), (("awesome").data, 2), (("amazing").data, 2),
   (("wish").data, 2), (("hope").data, 2), (("would be nice").data, 3),
   (("broken").data, 2), (("confused").data, 2), (("confusing").data, 2),
   (("unclear").data, 2),
   (("difficult").data, 2), (("hard to").data, 2), (("impossible").data, 3),
   (("doesn\x27t work").data, 3), (("not working").data, 3), (("stopped working").data, 3),
   (("please").data, 1), (("need").data, 1), (("important").data, 2),
   (("critical").data, 3),
   (("unfortunately").data, 2), (("disappointed").data, 3), (("expected").data, 1),
   (("but").data, 1), (("however").data, 1), (("instead").data, 1),
   (("keeps").data, 2), (("always").data, 1), (("never").data, 2),
   (("every time").data, 2),
   (("can\x27t").data, 2), (("cannot").data, 2), (("unable").data, 2),
   (("should").data, 1), (("shouldn\x27t").data, 2), (("why").data, 1),
   (("better").data, 1), (("worse").data, 2), (("terrible").data, 3),
   (("horrible").data, 3),
   (("useful").data, 2), (("helpful").data, 2), (("useless").data, 3)]

/-- Occurrence of w at index i of s, delimited by word boundaries. -/
def occursWholeWordAt (w s : Str) (i : Nat) : Bool :=
  w.isPrefixOf (s.drop i) &&
    (match (s.take i).getLast? with
     | none => true
     | some c => !isWordChar c) &&
    (match (s.drop (i + w.length)).head? with
     | none => true
     | some c => !isWordChar c)

/-- Python re.search of a word-boundary-delimited literal word. -/
def hasWholeWord (w s : Str) : Bool :=
  (List.range (s.length + 1)).any (occursWholeWordAt w s)

/-- The first-person pronoun alternatives of the bonus regex. -/
def pronouns : List Str :=
  (["i", "my", "me", "we", "our"]).map String.data

/-- score_quote_sentiment from the source. -/
def score_quote_sentiment (text : Str) : Nat :=
  let tl := toLower text
  let base := sentiment_words.foldl (fun acc p => if containsSub p.1 tl then acc + p.2 else acc) 0
  if pronouns.any (fun w => hasWholeWord w tl) then base + 1 else base

/-- The regex of is_boilerplate_sentence for a sentence ending in a colon,
optional whitespace, digits, an optional dot and optional whitespace. -/
def colonNumberEnd (s : Str) : Bool :=
  (List.range s.length).any (fun i =>
    match s.drop i with
    | ':' :: r =>
      let r1 := r.dropWhile isPySpace
      let ds := r1.takeWhile Char.isDigit
      let r2 := r1.drop ds.length
      !ds.isEmpty &&
        (match r2 with
         | '.' :: t => t.all isPySpace
         | _ => r2.all isPySpace)
    | _ => false)

/-- The issue-number boilerplate regex: the literal text issue, a space, a
hash sign, then at least one digit. -/
def issueNumHit (s : Str) : Bool :=
  (List.range (s.length + 1)).any (fun i =>
    let r := s.drop i
    (("issue #").data).isPrefixOf r && headIs Char.isDigit (r.drop 7))

/-- The severity boilerplate regexes: a, optional whitespace, a dash,
optional whitespace, then b. -/
def sepDashHit (a b s : Str) : Bool :=
  (List.range (s.length + 1)).any (fun i =>
    let r := s.drop i
    a.isPrefixOf r &&
      (match (r.drop a.length).dropWhile isPySpace with
       | '-' :: r3 => b.isPrefixOf (r3.dropWhile isPySpace)
       | _ => false))

/-- The numbered-label regex of is_boilerplate_sentence: digits, a dot,
optional whitespace, word characters, an optional colon, trailing whitespace. -/
def numberedLabel (s : Str) : Bool :=
  let ds := s.takeWhile Char.isDigit
  !ds.isEmpty &&
    (match s.drop ds.length with
     | '.' :: r1 =>
       let r2 := r1.dropWhile isPySpace
       let w := r2.takeWhile isWordChar
       !w.isEmpty &&
         (match r2.drop w.length with
          | ':' :: t => t.all isPySpace
          | r3 => r3.all isPySpace)
     | _ => false)

/-- The boilerplate_patterns loop of is_boilerplate_sentence on the
lower-cased sentence. -/
def boilerplateHit (tl : Str) : Bool :=
  containsSub (("test coverage").data) tl ||
  issueNumHit tl ||
  sepDashHit (("medium").data) (("feature").data) tl ||
  sepDashHit (("low").data) (("feature").data) tl ||
  sepDashHit (("high").data) (("feature").data) tl ||
  containsSub (("discovered during").data) tl ||
  containsSub (("test file:").data) tl ||
  containsSub (("workaround").data) tl ||
  containsSub (("manual verification").data) tl ||
  containsSub (("preflight").data) tl ||
  containsSub (("checklist").data) tl

/-- is_boilerplate_sentence from the source. -/
def is_boilerplate_sentence (text : Str) : Bool :=
  let ts := stripChars text
  let tl := toLower ts
  if colonNumberEnd ts then true
  else if boilerplateHit tl then true
  else if ([':']).isSuffixOf ts || ([':', ':']).isSuffixOf ts then true
  else if numberedLabel ts then true
  else false

/-- Python split on the newline character, empties kept. -/
def splitLines (s : Str) : List Str :=
  List.splitOn '\n' s

/-- Sentence-terminal punctuation of the sentence splitter. -/
def isSentEnd (c : Char) : Bool :=
  c == '.' || c == '!' || c == '?'

/-- The sentence splitter: split on whitespace runs that follow a
sentence-terminal character, the terminal staying with the left piece.
The first argument is recursion fuel (enough fuel never runs out, since
every step consumes at least one character), then the remaining text and
the current piece, reversed. -/
def splitSentencesGo : Nat → Str → Str → List Str
  | _, [], cur => [cur.reverse]
  | 0, s, cur => [cur.reverse ++ s]
  | Nat.succ n, c :: rest, cur =>
    if isSentEnd c && headIs isPySpace rest then
      (c :: cur).reverse :: splitSentencesGo n (rest.dropWhile isPySpace) []
    else splitSentencesGo n rest (c :: cur)

/-- Python re.split of the sentence pattern. -/
def split_sentences (s : Str) : List Str :=
  splitSentencesGo s.length s []

structure Quote where
  text : Str
  issue_number : Nat
  category : Category
  score : Nat
deriving DecidableEq

/-- The per-issue body of the candidate loop of get_representative_quotes:
skip short bodies, drop template lines, strip and rejoin, split into
sentences, and keep scored sentences passing every filter. -/
def quoteCandidatesOfItem (item : CategorizedIssue) : List Quote :=
  let body := item.issue.body
  if body.length < 50 then []
  else
    let lines := splitLines body
    let clean_lines := (lines.filter (fun l => !is_template_line l)).map stripChars
    let clean_text := List.intercalate [' '] clean_lines
    (split_sentences clean_text).filterMap (fun s0 =>
      let s := stripChars s0
      if s.length < 50 || 350 < s.length then none
      else if is_template_line s then none
      else if is_boilerplate_sentence s then none
      else
        let score := score_quote_sentiment s
        if 2 ≤ score then some ⟨s, item.issue.number, item.category, score⟩
        else none)

/-- The selection walk of get_representative_quotes: keep the first quote
per issue number, and after each step stop once five quotes are kept. -/
def quotesLoop : List Quote → List Nat → List Quote → List Quote
  | [], _, quotes => quotes
  | q :: rest, seen, quotes =>
    if seen.contains q.issue_number then
      if 5 ≤ quotes.length then quotes
      else quotesLoop rest seen quotes
    else
      if 5 ≤ (quotes ++ [q]).length then quotes ++ [q]
      else quotesLoop rest (q.issue_number :: seen) (quotes ++ [q])

/-- get_representative_quotes from the source: collect candidates over all
issues, stable-sort by descending score, then select. -/
def get_representative_quotes (categorized_issues : List CategorizedIssue) : List Quote :=
  let candidates := categorized_issues.flatMap quoteCandidatesOfItem
  let sorted := sortByKeyDesc Quote.score candidates
  quotesLoop sorted [] []

theorem findSome?_append_of_none {α β : Type} (f : α → Option β) (l₁ l₂ : List α)
    (h : ∀ a ∈ l₁, f a = none) :
    (l₁ ++ l₂).findSome? f = l₂.findSome? f := by
  induction l₁ with
  | nil => rfl
  | cons a l ih =>
    rw [List.cons_append, List.findSome?_cons, h a (by simp)]
    exact ih (fun x hx => h x (by simp [hx]))

/-- Claim C10: in the keyword fallback the scanned text is the title, one
space and the body, lower-cased, so a keyword can span the title-body
boundary: there is an issue with no matching label where how-to occurs in
the joined text but in neither part alone, and it still scores for
ux_confusion. -/
theorem c10_keyword_spans_boundary :
    ∃ issue : Issue,
      findLabelMatch issue.labels = none ∧
      concatText issue = toLower (issue.title ++ ' ' :: issue.body) ∧
      containsSub (("how to").data) (concatText issue) = true ∧
      containsSub (("how to").data) (toLower issue.title) = false ∧
      containsSub (("how to").data) (toLower issue.body) = false ∧
      keywordScore uxKeywords (concatText issue) = 1 ∧
      (categorize_issue issue).category = Category.ux_confusion := by
  refine ⟨⟨3, ("I wonder how").data, ("to quit the REPL").data, []⟩, ?_⟩
  refine ⟨rfl, rfl, ?_⟩
  decide

/-- Claim C5: categorize_all_issues is the element-wise map of
categorize_issue over the input, in order: same length, the i-th output
pairs the i-th input issue with its categorization, and the category and
confidence assigned to an issue depend only on its title, body and labels,
so no other issue of the list can influence them. -/
theorem c5_map_of_categorize (issues : List Issue) :
    categorize_all_issues issues = issues.map categorize_issue ∧
    (categorize_all_issues issues).length = issues.length ∧
    (∀ i : Nat, (categorize_all_issues issues)[i]? = (issues[i]?).map categorize_issue) ∧
    (∀ a b : Issue, a.title = b.title → a.body = b.body → a.labels = b.labels →
      (categorize_issue a).category = (categorize_issue b).category ∧
      (categorize_issue a).confidence = (categorize_issue b).confidence) := by
  refine ⟨rfl, by simp [categorize_all_issues],
    fun i => by simp [categorize_all_issues, List.getElem?_map], ?_⟩
  intro a b ht hb hl
  have hc : concatText a = concatText b := by simp [concatText, ht, hb]
  unfold categorize_issue
  rw [hl, hc]
  cases findLabelMatch b.labels with
  | some c => exact ⟨rfl, rfl⟩
  | none =>
    simp only
    split <;> exact ⟨rfl, rfl⟩

theorem c5_map_of_categorize_witness :
    (categorize_issue ⟨1, ("t").data, [], []⟩).category
      = (categorize_issue ⟨2, ("t").data, [], []⟩).category :=
  ((c5_map_of_categorize []).2.2.2 ⟨1, ("t").data, [], []⟩ ⟨2, ("t").data, [], []⟩
    rfl rfl rfl).1

/-- Claim C2: when some label of the issue contains a mapping key, the
result is the category mapped from the first such label in original label
order, keys tested in mapping declaration order within each label, with
confidence high; and the result does not depend on title or body, so the
keyword scoring is never consulted. -/
theorem c2_label_shortcut (issue : Issue) (pre rest : List Str) (lab : Str)
    (mpre mrest : List (Str × Category)) (k : Str) (cat : Category)
    (hlabels : issue.labels = pre ++ lab :: rest)
    (hpre : ∀ l ∈ pre, ∀ m ∈ label_mapping, containsSub m.1 (toLower l) = false)
    (hmap : label_mapping = mpre ++ (k, cat) :: mrest)
    (hmpre : ∀ m ∈ mpre, containsSub m.1 (toLower lab) = false)
    (hk : containsSub k (toLower lab) = true) :
    categorize_issue issue = ⟨issue, cat, Confidence.high⟩ ∧
    ∀ t b : Str, categorize_issue ⟨issue.number, t, b, issue.labels⟩ =
      ⟨⟨issue.number, t, b, issue.labels⟩, cat, Confidence.high⟩ := by
  have hinner : label_mapping.findSome? (fun m =>
      if containsSub m.1 (toLower lab) then some m.2 else none) = some cat := by
    rw [hmap]
    rw [findSome?_append_of_none _ mpre _ (fun m hm => by rw [hmpre m hm]; rfl)]
    rw [List.findSome?_cons]
    simp [hk]
  have hfind : findLabelMatch issue.labels = some cat := by
    unfold findLabelMatch
    rw [hlabels, List.map_append, List.map_cons]
    rw [findSome?_append_of_none _ _ _ ?_]
    · rw [List.findSome?_cons]
      simp only [hinner]
    · intro l hl
      rw [List.mem_map] at hl
      obtain ⟨l0, hl0, rfl⟩ := hl
      rw [List.findSome?_eq_none_iff]
      intro m hm
      rw [hpre l0 hl0 m hm]
      rfl
  constructor
  · unfold categorize_issue
    rw [hfind]
  · intro t b
    unfold categorize_issue
    rw [show (⟨issue.number, t, b, issue.labels⟩ : Issue).labels = issue.labels from rfl, hfind]

theorem c2_label_shortcut_witness :
    categorize_issue ⟨4, ("t").data, ("b").data,
        [("needs-triage").data, ("Enhancement").data]⟩
      = ⟨⟨4, ("t").data, ("b").data, [("needs-triage").data, ("Enhancement").data]⟩,
         Category.feature_request, Confidence.high⟩ :=
  (c2_label_shortcut ⟨4, ("t").data, ("b").data,
      [("needs-triage").data, ("Enhancement").data]⟩
    [("needs-triage").data] [] (("Enhancement").data)
    [(("bug").data, Category.bug), (("feature").data, Category.feature_request)]
    [(("documentation").data, Category.documentation),
     (("docs").data, Category.documentation),
     (("question").data, Category.ux_confusion)]
    (("enhancement").data) Category.feature_request
    rfl (by decide) (by decide) (by decide) (by decide)).1

/-- Claim C1: in the keyword fallback each category scores the number of
its keywords occurring as substrings of the lower-cased joined text; a
zero maximum yields category other with confidence low, otherwise the
first category reaching the maximum in declaration order wins, with
confidence high when the maximum is at least 3, medium at least 2, low
otherwise. -/
theorem c1_keyword_fallback (issue : Issue)
    (h : findLabelMatch issue.labels = none) :
    categorize_issue issue =
      (let sb := keywordScore bugKeywords (concatText issue)
       let sf := keywordScore featureKeywords (concatText issue)
       let su := keywordScore uxKeywords (concatText issue)
       let sd := keywordScore docKeywords (concatText issue)
       let m := Nat.max (Nat.max (Nat.max sb sf) su) sd
       if m = 0 then ⟨issue, Category.other, Confidence.low⟩
       else
         ⟨issue,
          if sb = m then Category.bug
          else if sf = m then Category.feature_request
          else if su = m then Category.ux_confusion
          else Category.documentation,
          if 3 ≤ m then Confidence.high
          else if 2 ≤ m then Confidence.medium
          else Confidence.low⟩) := by
  unfold categorize_issue
  rw [h]
  simp only [CATEGORY_KEYWORDS, List.map_cons, List.map_nil, List.foldl_cons, List.foldl_nil,
    Nat.zero_max]
  generalize keywordScore bugKeywords (concatText issue) = sb
  generalize keywordScore featureKeywords (concatText issue) = sf
  generalize keywordScore uxKeywords (concatText issue) = su
  generalize keywordScore docKeywords (concatText issue) = sd
  set m := Nat.max (Nat.max (Nat.max sb sf) su) sd with hm
  have hcases : sb = m ∨ sf = m ∨ su = m ∨ sd = m := by
    rw [hm]
    simp only [Nat.max_def]
    split_ifs <;> tauto
  by_cases hz : m = 0
  · have : ¬ 0 < m := by omega
    simp only [hz, if_pos rfl, this, if_false]
    simp [hz] at *
  · have hpos : 0 < m := Nat.pos_of_ne_zero hz
    simp only [if_neg hz, if_pos hpos]
    congr 1
    · -- category component
      simp only [List.find?]
      by_cases h1 : sb = m
      · simp [h1]
      · rw [if_neg h1]
        have h1b : (sb == m) = false := by simp [h1]
        simp only [h1b, cond_false]
        by_cases h2 : sf = m
        · simp [h2]
        · rw [if_neg h2]
          have h2b : (sf == m) = false := by simp [h2]
          simp only [h2b, cond_false]
          by_cases h3 : su = m
          · simp [h3]
          · rw [if_neg h3]
            have h3b : (su == m) = false := by simp [h3]
            have h4 : sd = m := by tauto
            simp [h3b, h4]

theorem c1_keyword_fallback_witness :
    (categorize_issue ⟨5, ("strange crash").data, [], []⟩).category = Category.bug ∧
    (categorize_issue ⟨5, ("strange crash").data, [], []⟩).confidence = Confidence.low := by
  have h := c1_keyword_fallback ⟨5, ("strange crash").data, [], []⟩ (by decide)
  rw [h]
  exact ⟨by decide, by decide⟩

/-- Claim C9: is_template_line is true exactly when the trimmed line is
empty, or starts with a structural marker, or contains a template phrase
case-insensitively, or matches the key-value pattern with trimmed length
under 80, or starts with a code-or-log marker. -/
theorem c9_template_line_iff (line : Str) :
    is_template_line line = true ↔
      (stripChars line = [] ∨
       startsWithAny templateMarkers (stripChars line) = true ∨
       (∃ p ∈ template_phrases, containsSub p (toLower (stripChars line)) = true) ∨
       (keyValueMatch (stripChars line) = true ∧ (stripChars line).length < 80) ∨
       startsWithAny codeLineMarkers (stripChars line) = true) := by
  unfold is_template_line
  simp only [List.isEmpty_iff, ← List.any_eq_true]
  split_ifs with h1 h2 h3 h4 h5 <;>
    simp_all [List.any_eq_true, Bool.and_eq_true, decide_eq_true_eq]

theorem c9_template_line_iff_witness :
    is_template_line (("  ### Steps").data) = true :=
  (c9_template_line_iff (("  ### Steps").data)).mpr (by decide)

theorem quotesLoop_spec (cands : List Quote) :
    ∀ seen quotes,
      quotes.length < 5 →
      quotes.Pairwise (fun a b => b.score ≤ a.score) →
      (quotes.map Quote.issue_number).Nodup →
      (∀ q ∈ quotes, q.issue_number ∈ seen) →
      (∀ q ∈ quotes, ∀ c ∈ cands, c.score ≤ q.score) →
      cands.Pairwise (fun a b => b.score ≤ a.score) →
      (quotesLoop cands seen quotes).length ≤ 5 ∧
      ((quotesLoop cands seen quotes).map Quote.issue_number).Nodup ∧
      (quotesLoop cands seen quotes).Pairwise (fun a b => b.score ≤ a.score) := by
  induction cands with
  | nil =>
    intro seen quotes h1 h2 h3 _ _ _
    exact ⟨by simpa [quotesLoop] using Nat.le_of_lt h1,
      by simpa [quotesLoop] using h3, by simpa [quotesLoop] using h2⟩
  | cons q0 rest ih =>
    intro seen quotes h1 h2 h3 h4 h5 h6
    have hrest_sorted : rest.Pairwise (fun a b => b.score ≤ a.score) :=
      (List.pairwise_cons.mp h6).2
    have hq_ge : ∀ c ∈ rest, c.score ≤ q0.score := (List.pairwise_cons.mp h6).1
    rw [quotesLoop]
    by_cases hseen : seen.contains q0.issue_number
    · rw [if_pos hseen]
      rw [if_neg (by omega)]
      exact ih seen quotes h1 h2 h3 h4
        (fun q' hq' c hc => h5 q' hq' c (by simp [hc])) hrest_sorted
    · rw [if_neg hseen]
      rw [Bool.not_eq_true] at hseen
      have hnotseen : q0.issue_number ∉ seen := by simpa using hseen
      have hnum_not : q0.issue_number ∉ quotes.map Quote.issue_number := by
        intro hmem
        rw [List.mem_map] at hmem
        obtain ⟨q', hq', hnum⟩ := hmem
        exact hnotseen (hnum ▸ h4 q' hq')
      have hnodup2 : ((quotes ++ [q0]).map Quote.issue_number).Nodup := by
        rw [List.map_append, List.nodup_append]
        refine ⟨h3, by simp, ?_⟩
        intro a ha
        simp only [List.map_cons, List.map_nil, List.mem_singleton]
        intro hb
        exact hnum_not (hb ▸ ha)
      have hsorted2 : (quotes ++ [q0]).Pairwise (fun a b => b.score ≤ a.score) := by
        rw [List.pairwise_append]
        refine ⟨h2, by simp, ?_⟩
        intro a ha b hb
        rw [List.mem_singleton] at hb
        rw [hb]
        exact h5 a ha q0 (by simp)
      by_cases hfull : 5 ≤ (quotes ++ [q0]).length
      · rw [if_pos hfull]
        refine ⟨?_, hnodup2, hsorted2⟩
        simp only [List.length_append, List.length_cons, List.length_nil] at *
        omega
      · rw [if_neg hfull]
        refine ih (q0.issue_number :: seen) (quotes ++ [q0]) ?_ hsorted2 hnodup2 ?_ ?_ hrest_sorted
        · omega
        · intro q' hq'
          rw [List.mem_append] at hq'
          rcases hq' with hq' | hq'
          · exact List.mem_cons_of_mem _ (h4 q' hq')
          · rw [List.mem_singleton] at hq'
            rw [hq']
            exact List.mem_cons_self _ _
        · intro q' hq' c hc
          rw [List.mem_append] at hq'
          rcases hq' with hq' | hq'
          · exact h5 q' hq' c (by simp [hc])
          · rw [List.mem_singleton] at hq'
            rw [hq']
            exact hq_ge c hc

theorem insertByKeyDesc_perm {α : Type} (key : α → Nat) (x : α) (l : List α) :
    (insertByKeyDesc key x l).Perm (x :: l) := by
  induction l with
  | nil => exact List.Perm.refl _
  | cons y ys ih =>
    rw [insertByKeyDesc]
    by_cases h : key y ≤ key x
    · rw [if_pos h]
    · rw [if_neg h]
      exact (ih.cons y).trans (List.Perm.swap x y ys)

theorem sortByKeyDesc_perm {α : Type} (key : α → Nat) (l : List α) :
    (sortByKeyDesc key l).Perm l := by
  induction l with
  | nil => exact List.Perm.refl _
  | cons x xs ih => exact (insertByKeyDesc_perm key x _).trans (ih.cons x)

theorem insertByKeyDesc_sorted {α : Type} (key : α → Nat) (x : α) (l : List α)
    (h : l.Pairwise (fun a b => key b ≤ key a)) :
    (insertByKeyDesc key x l).Pairwise (fun a b => key b ≤ key a) := by
  induction l with
  | nil => simp [insertByKeyDesc]
  | cons y ys ih =>
    rw [insertByKeyDesc]
    rcases List.pairwise_cons.mp h with ⟨hy, hys⟩
    by_cases hxy : key y ≤ key x
    · rw [if_pos hxy]
      refine List.pairwise_cons.mpr ⟨?_, h⟩
      intro b hb
      rcases List.mem_cons.mp hb with hb | hb
      · rw [hb]
        exact hxy
      · exact le_trans (hy b hb) hxy
    · rw [if_neg hxy]
      refine List.pairwise_cons.mpr ⟨?_, ih hys⟩
      intro b hb
      have hb2 : b ∈ x :: ys := (insertByKeyDesc_perm key x ys).mem_iff.mp hb
      rcases List.mem_cons.mp hb2 with hb2 | hb2
      · rw [hb2]
        omega
      · exact hy b hb2

theorem sortByKeyDesc_sorted {α : Type} (key : α → Nat) (l : List α) :
    (sortByKeyDesc key l).Pairwise (fun a b => key b ≤ key a) := by
  induction l with
  | nil => simp [sortByKeyDesc]
  | cons x xs ih => exact insertByKeyDesc_sorted key x _ ih

/-- Claim C4: the quote selector returns at most five quotes, no two with
the same issue number, and the quotes are ordered by non-increasing score. -/
theorem c4_quote_selector (items : List CategorizedIssue) :
    (get_representative_quotes items).length ≤ 5 ∧
    ((get_representative_quotes items).map Quote.issue_number).Nodup ∧
    (get_representative_quotes items).Pairwise (fun a b => b.score ≤ a.score) := by
  have hs := sortByKeyDesc_sorted Quote.score (items.flatMap quoteCandidatesOfItem)
  unfold get_representative_quotes
  exact quotesLoop_spec _ [] []
    (by decide) List.Pairwise.nil (by simp) (by simp) (by simp) hs

theorem mem_quotesLoop (cands : List Quote) :
    ∀ seen quotes q, q ∈ quotesLoop cands seen quotes → q ∈ quotes ∨ q ∈ cands := by
  induction cands with
  | nil =>
    intro seen quotes q hq
    rw [quotesLoop] at hq
    exact Or.inl hq
  | cons q0 rest ih =>
    intro seen quotes q hq
    rw [quotesLoop] at hq
    by_cases hseen : seen.contains q0.issue_number
    · rw [if_pos hseen] at hq
      by_cases hfull : 5 ≤ quotes.length
      · rw [if_pos hfull] at hq
        exact Or.inl hq
      · rw [if_neg hfull] at hq
        rcases ih seen quotes q hq with h | h
        · exact Or.inl h
        · exact Or.inr (List.mem_cons_of_mem _ h)
    · rw [if_neg hseen] at hq
      by_cases hfull : 5 ≤ (quotes ++ [q0]).length
      · rw [if_pos hfull] at hq
        rcases List.mem_append.mp hq with h | h
        · exact Or.inl h
        · rw [List.mem_singleton] at h
          exact Or.inr (by rw [h]; exact List.mem_cons_self _ _)
      · rw [if_neg hfull] at hq
        rcases ih _ _ q hq with h | h
        · rcases List.mem_append.mp h with h | h
          · exact Or.inl h
          · rw [List.mem_singleton] at h
            exact Or.inr (by rw [h]; exact List.mem_cons_self _ _)
        · exact Or.inr (List.mem_cons_of_mem _ h)

theorem mem_quoteCandidatesOfItem (item : CategorizedIssue) (q : Quote)
    (hq : q ∈ quoteCandidatesOfItem item) :
    50 ≤ q.text.length ∧ q.text.length ≤ 350 ∧ 2 ≤ q.score ∧
    q.issue_number = item.issue.number ∧ q.category = item.category ∧
    50 ≤ item.issue.body.length := by
  simp only [quoteCandidatesOfItem] at hq
  split at hq
  · simp at hq
  · next hblen =>
    rw [List.mem_filterMap] at hq
    obtain ⟨s0, _, hf⟩ := hq
    split at hf
    · simp at hf
    · next hlen =>
      split at hf
      · simp at hf
      · split at hf
        · simp at hf
        · split at hf
          · next hscore =>
            injection hf with hf
            rw [← hf]
            simp only [Bool.or_eq_true, decide_eq_true_eq, not_or, Nat.not_lt] at hlen hblen
            exact ⟨hlen.1, hlen.2, hscore, rfl, rfl, hblen⟩
          · simp at hf

/-- Claim C8: every selected quote has trimmed text of length between 50
and 350, sentiment score at least 2, and comes from an issue of the input
whose body is non-empty and at least 50 characters long; an issue with a
shorter body contributes no candidate at all. -/
theorem c8_quote_provenance (items : List CategorizedIssue) (q : Quote)
    (hq : q ∈ get_representative_quotes items) :
    50 ≤ q.text.length ∧ q.text.length ≤ 350 ∧ 2 ≤ q.score ∧
    (∃ item ∈ items, q.issue_number = item.issue.number ∧
      item.issue.body ≠ [] ∧ 50 ≤ item.issue.body.length) ∧
    (∀ it : CategorizedIssue, it.issue.body.length < 50 →
      quoteCandidatesOfItem it = []) := by
  have hcand : q ∈ items.flatMap quoteCandidatesOfItem := by
    unfold get_representative_quotes at hq
    rcases mem_quotesLoop _ [] [] q hq with h | h
    · simp at h
    · exact (sortByKeyDesc_perm Quote.score _).mem_iff.mp h
  rw [List.mem_flatMap] at hcand
  obtain ⟨item, hitem, hqi⟩ := hcand
  obtain ⟨ht1, ht2, hs, hnum, _, hbody⟩ := mem_quoteCandidatesOfItem item q hqi
  refine ⟨ht1, ht2, hs, ⟨item, hitem, hnum, ?_, hbody⟩, ?_⟩
  · intro hnil
    rw [hnil] at hbody
    simp at hbody
  · intro it hit
    unfold quoteCandidatesOfItem
    rw [if_pos hit]

theorem c8_quote_provenance_witness :
    2 ≤ (Quote.mk (("I am so frustrated that this keeps breaking every time I run it, but I love the rest of the tool.").data)
        7 Category.bug 12).score :=
  (c8_quote_provenance
    [⟨⟨7, ("x").data,
        ("I am so frustrated that this keeps breaking every time I run it, but I love the rest of the tool.").data,
        []⟩, Category.bug, Confidence.low⟩]
    ⟨("I am so frustrated that this keeps breaking every time I run it, but I love the rest of the tool.").data,
      7, Category.bug, 12⟩ (by decide)).2.2.1

theorem category_themes_pairs_facts (its : List CategorizedIssue) :
    (category_themes_pairs its).length ≤ 3 ∧ ∀ p ∈ category_themes_pairs its, 2 ≤ p.2 := by
  simp only [category_themes_pairs]
  constructor
  · rw [List.length_take]
    exact Nat.min_le_left _ _
  · intro p hp
    have hp2 := (List.take_sublist 3 _).mem hp
    rw [List.mem_filter] at hp2
    exact of_decide_eq_true hp2.2

/-- Claim C7: the theme extractor maps each listed category to at most 3
display strings, every theme pair behind them has count at least 2, and a
category with no qualifying theme is absent from the output rather than
mapped to an empty list. -/
theorem c7_theme_bounds (items : List CategorizedIssue) (e : Category × List Str)
    (he : e ∈ extract_themes_by_category items) :
    e.2.length ≤ 3 ∧ e.2 ≠ [] ∧
    ∃ g ∈ groupByCategory items, g.1 = e.1 ∧
      e.2 = (category_themes_pairs g.2).map (fun p => format_theme p.1 p.2) ∧
      category_themes_pairs g.2 ≠ [] ∧
      ∀ p ∈ category_themes_pairs g.2, 2 ≤ p.2 := by
  simp only [extract_themes_by_category] at he
  rw [List.mem_filterMap] at he
  obtain ⟨g, hg, hf⟩ := he
  split at hf
  · cases hf
  · next hne =>
    injection hf with hf
    have he1 : g.1 = e.1 := congrArg Prod.fst hf
    have he2 : (category_themes_pairs g.2).map (fun p => format_theme p.1 p.2) = e.2 :=
      congrArg Prod.snd hf
    have hpairs_ne : category_themes_pairs g.2 ≠ [] := by
      intro hnil
      rw [hnil] at hne
      simp at hne
    refine ⟨?_, ?_, g, hg, he1, he2.symm, hpairs_ne, (category_themes_pairs_facts g.2).2⟩
    · rw [← he2, List.length_map]
      exact (category_themes_pairs_facts g.2).1
    · rw [← he2]
      simp only [ne_eq, List.map_eq_nil_iff]
      exact hpairs_ne

theorem c7_theme_bounds_witness :
    (([("timeout (2)").data] : List Str).length ≤ 3) ∧
      ([("timeout (2)").data] : List Str) ≠ [] :=
  ⟨(c7_theme_bounds
      [⟨⟨1, ("timeout parsing").data, [], []⟩, Category.bug, Confidence.low⟩,
       ⟨⟨2, ("timeout failure").data, [], []⟩, Category.bug, Confidence.low⟩]
      (Category.bug, [("timeout (2)").data]) (by decide)).1,
   (c7_theme_bounds
      [⟨⟨1, ("timeout parsing").data, [], []⟩, Category.bug, Confidence.low⟩,
       ⟨⟨2, ("timeout failure").data, [], []⟩, Category.bug, Confidence.low⟩]
      (Category.bug, [("timeout (2)").data]) (by decide)).2.1⟩

theorem tallyInsert_keys_nodup (acc : List (Str × Nat)) (w : Str)
    (h : (acc.map Prod.fst).Nodup) :
    ((tallyInsert acc w).map Prod.fst).Nodup := by
  unfold tallyInsert
  by_cases hany : acc.any (fun p => p.1 == w)
  · rw [if_pos hany]
    have hkeys : (acc.map (fun p => if p.1 == w then (p.1, p.2 + 1) else p)).map Prod.fst
        = acc.map Prod.fst := by
      rw [List.map_map]
      apply List.map_congr_left
      intro p _
      simp only [Function.comp_apply]
      split <;> rfl
    rw [hkeys]
    exact h
  · rw [if_neg hany]
    rw [List.map_append, List.nodup_append]
    refine ⟨h, by simp, ?_⟩
    intro a ha
    simp only [List.map_cons, List.map_nil, List.mem_singleton]
    intro haw
    apply hany
    rw [List.any_eq_true]
    rw [List.mem_map] at ha
    obtain ⟨p, hp, hpa⟩ := ha
    exact ⟨p, hp, by rw [beq_iff_eq, hpa, haw]⟩

theorem tallyInsert_values (acc : List (Str × Nat)) (w : Str) (f : Str → Nat)
    (hv : ∀ p ∈ acc, p.2 = f p.1)
    (h0 : ∀ x, x ∉ acc.map Prod.fst → f x = 0) :
    ∀ p ∈ tallyInsert acc w, p.2 = f p.1 + (if p.1 = w then 1 else 0) := by
  intro p hp
  unfold tallyInsert at hp
  by_cases hany : acc.any (fun q => q.1 == w)
  · rw [if_pos hany] at hp
    rw [List.mem_map] at hp
    obtain ⟨q, hq, hqp⟩ := hp
    by_cases hqw : q.1 == w
    · rw [if_pos hqw] at hqp
      rw [← hqp]
      rw [beq_iff_eq] at hqw
      simp only [hqw, if_pos rfl]
      rw [← hqw]
      exact congrArg (· + 1) (hv q hq)
    · rw [if_neg hqw] at hqp
      rw [← hqp]
      rw [beq_iff_eq] at hqw
      simp only [hqw, if_neg hqw]
      exact hv q hq
  · rw [if_neg hany] at hp
    rcases List.mem_append.mp hp with hp | hp
    · have hkey : p.1 ≠ w := by
        intro hpw
        apply hany
        rw [List.any_eq_true]
        exact ⟨p, hp, by rw [beq_iff_eq, hpw]⟩
      simp only [hkey, if_neg hkey]
      exact hv p hp
    · rw [List.mem_singleton] at hp
      rw [hp]
      simp only [if_pos rfl]
      have : w ∉ acc.map Prod.fst := by
        intro hw
        apply hany
        rw [List.any_eq_true]
        rw [List.mem_map] at hw
        obtain ⟨q, hq, hqw⟩ := hw
        exact ⟨q, hq, by rw [beq_iff_eq, hqw]⟩
      rw [h0 w this]
      simp

theorem tallyInsert_absent (acc : List (Str × Nat)) (w : Str) (f : Str → Nat)
    (h0 : ∀ x, x ∉ acc.map Prod.fst → f x = 0) :
    ∀ x, x ∉ (tallyInsert acc w).map Prod.fst →
      f x + (if x = w then 1 else 0) = 0 := by
  intro x hx
  unfold tallyInsert at hx
  by_cases hany : acc.any (fun q => q.1 == w)
  · rw [if_pos hany] at hx
    have hkeys : (acc.map (fun p => if p.1 == w then (p.1, p.2 + 1) else p)).map Prod.fst
        = acc.map Prod.fst := by
      rw [List.map_map]
      apply List.map_congr_left
      intro p _
      simp only [Function.comp_apply]
      split <;> rfl
    rw [hkeys] at hx
    have hxw : x ≠ w := by
      intro hxw
      rw [List.any_eq_true] at hany
      obtain ⟨q, hq, hqw⟩ := hany
      rw [beq_iff_eq] at hqw
      apply hx
      rw [List.mem_map]
      exact ⟨q, hq, by rw [hqw, hxw]⟩
    rw [h0 x hx, if_neg hxw]
  · rw [if_neg hany, List.map_append] at hx
    rw [List.mem_append] at hx
    push_neg at hx
    obtain ⟨hx1, hx2⟩ := hx
    simp only [List.map_cons, List.map_nil, List.mem_singleton] at hx2
    rw [h0 x hx1, if_neg hx2]

theorem tally_fold_inv (ws : List Str) :
    ∀ (acc : List (Str × Nat)) (f : Str → Nat),
      (acc.map Prod.fst).Nodup →
      (∀ p ∈ acc, p.2 = f p.1) →
      (∀ x, x ∉ acc.map Prod.fst → f x = 0) →
      (∀ p ∈ ws.foldl tallyInsert acc, p.2 = f p.1 + ws.count p.1) := by
  induction ws with
  | nil =>
    intro acc f _ hv _ p hp
    rw [List.foldl_nil] at hp
    simpa using hv p hp
  | cons w ws ih =>
    intro acc f hk hv h0 p hp
    rw [List.foldl_cons] at hp
    have step := ih (tallyInsert acc w) (fun x => f x + if x = w then 1 else 0)
      (tallyInsert_keys_nodup acc w hk)
      (tallyInsert_values acc w f hv h0)
      (tallyInsert_absent acc w f h0)
      p hp
    rw [step, List.count_cons]
    have : (w == p.1) = (decide (p.1 = w)) := by
      by_cases h : p.1 = w
      · simp [h]
      · simp [h]
        intro hc
        exact h hc.symm
    rw [this]
    by_cases h : p.1 = w
    · simp [h]
      omega
    · simp [h]

theorem mem_tally_count (ws : List Str) (p : Str × Nat) (hp : p ∈ tally ws) :
    p.2 = ws.count p.1 := by
  have h := tally_fold_inv ws [] (fun _ => 0) (by simp) (by simp) (by simp) p hp
  simpa using h

/-- Claim C3 amended: every theme pair of a category group carries as count
the total number of occurrences of the word in the flat token sequence of
the group titles, so a title repeating the word contributes once per
occurrence, not once per title. -/
theorem c3_theme_count_total (items : List CategorizedIssue) (p : Str × Nat)
    (hp : p ∈ category_themes_pairs items) :
    p.2 = (items.flatMap (fun it => tokenize_title it.issue.title)).count p.1 := by
  simp only [category_themes_pairs, most_common] at hp
  have h1 := (List.take_sublist 3 _).mem hp
  rw [List.mem_filter] at h1
  have h2 := (List.take_sublist 5 _).mem h1.1
  have h3 := (sortByKeyDesc_perm Prod.snd _).mem_iff.mp h2
  exact mem_tally_count _ p h3

theorem c3_theme_count_total_witness :
    ((("parse").data, 2) : Str × Nat).2
      = (([⟨⟨1, ("parse parse failure").data, [], []⟩, Category.bug, Confidence.low⟩]
          : List CategorizedIssue).flatMap
            (fun it => tokenize_title it.issue.title)).count (("parse").data) :=
  c3_theme_count_total
    [⟨⟨1, ("parse parse failure").data, [], []⟩, Category.bug, Confidence.low⟩]
    ((("parse").data, 2)) (by decide)

/-- Claim C3 counterexample: a single title repeating a word twice yields a
theme pair counting 2, while only one title of the group contains the word,
refuting the once-per-title reading. -/
theorem c3_counterexample :
    category_themes_pairs
        [⟨⟨1, ("parse parse failure").data, [], []⟩, Category.bug, Confidence.low⟩]
      = [((("parse").data : Str), 2)] ∧
    (([⟨⟨1, ("parse parse failure").data, [], []⟩, Category.bug, Confidence.low⟩]
        : List CategorizedIssue).countP
          (fun it => (tokenize_title it.issue.title).contains (("parse").data))) = 1 ∧
    extract_themes_by_category
        [⟨⟨1, ("parse parse failure").data, [], []⟩, Category.bug, Confidence.low⟩]
      = [(Category.bug, [("parse (2)").data])] ∧
    (2 : Nat) ≠ 1 := by decide

theorem getLast?_mem_chars : ∀ (l : Str) (c : Char), l.getLast? = some c → c ∈ l := by
  intro l
  induction l with
  | nil => intro c h; cases h
  | cons a tl ih =>
    intro c h
    cases tl with
    | nil =>
      simp only [List.getLast?_singleton, Option.some.injEq] at h
      rw [h]
      exact List.mem_singleton_self c
    | cons b tl' =>
      rw [List.getLast?_cons_cons] at h
      exact List.mem_cons_of_mem _ (ih c h)

theorem getLast?_exists_chars : ∀ (l : Str), l ≠ [] → ∃ c, l.getLast? = some c := by
  intro l
  induction l with
  | nil => intro h; exact absurd rfl h
  | cons a tl ih =>
    intro _
    cases tl with
    | nil => exact ⟨a, rfl⟩
    | cons b tl' =>
      obtain ⟨c, hc⟩ := ih (by simp)
      exact ⟨c, by rw [List.getLast?_cons_cons]; exact hc⟩

theorem head?_dropWhile_false (p : Char → Bool) (l : Str) :
    ∀ c, (l.dropWhile p).head? = some c → p c = false := by
  intro c hc
  have h := List.head?_dropWhile_not p l
  rw [hc] at h
  exact h

theorem runsBy_cons_eq (p : Char → Bool) (c : Char) (cs : Str) :
    runsBy p (c :: cs) =
      if p c = true then
        if headIs p cs = true then
          match runsBy p cs with
          | r :: rs => (c :: r) :: rs
          | [] => [[c]]
        else [c] :: runsBy p cs
      else runsBy p cs := rfl

theorem runsBy_cons_pos (p : Char → Bool) (c : Char) (cs : Str) (hc : p c = true) :
    runsBy p (c :: cs) = (c :: cs.takeWhile p) :: runsBy p (cs.dropWhile p) := by
  induction cs generalizing c with
  | nil => simp [runsBy, headIs, hc]
  | cons d ds ih =>
    by_cases hd : p d = true
    · rw [runsBy_cons_eq, if_pos hc]
      have hh : headIs p (d :: ds) = true := by simp [headIs, hd]
      rw [if_pos hh, ih d hd]
      rw [List.takeWhile_cons_of_pos hd, List.dropWhile_cons_of_pos hd]
    · rw [runsBy_cons_eq, if_pos hc]
      have hh : ¬ headIs p (d :: ds) = true := by simp [headIs, hd]
      rw [if_neg hh]
      rw [List.takeWhile_cons_of_neg hd, List.dropWhile_cons_of_neg hd]

theorem takeWhile_append_all (p : Char → Bool) (r post : Str)
    (h : ∀ c ∈ r, p c = true) :
    (r ++ post).takeWhile p = r ++ post.takeWhile p := by
  induction r with
  | nil => simp
  | cons a tl ih =>
    rw [List.cons_append, List.takeWhile_cons_of_pos (h a (by simp)), List.cons_append]
    rw [ih (fun c hc => h c (by simp [hc]))]

theorem dropWhile_append_all (p : Char → Bool) (r post : Str)
    (h : ∀ c ∈ r, p c = true) :
    (r ++ post).dropWhile p = post.dropWhile p := by
  induction r with
  | nil => simp
  | cons a tl ih =>
    rw [List.cons_append, List.dropWhile_cons_of_pos (h a (by simp))]
    exact ih (fun c hc => h c (by simp [hc]))

theorem takeWhile_eq_nil_of_headIs (p : Char → Bool) (l : Str)
    (h : headIs p l = false) : l.takeWhile p = [] := by
  cases l with
  | nil => rfl
  | cons a tl =>
    simp only [headIs] at h
    rw [List.takeWhile_cons_of_neg (by rw [h]; exact Bool.false_ne_true)]

theorem dropWhile_eq_self_of_headIs (p : Char → Bool) (l : Str)
    (h : headIs p l = false) : l.dropWhile p = l := by
  cases l with
  | nil => rfl
  | cons a tl =>
    simp only [headIs] at h
    rw [List.dropWhile_cons_of_neg (by rw [h]; exact Bool.false_ne_true)]

theorem runsBy_run_head (p : Char → Bool) (r post : Str) (hne : r ≠ [])
    (hall : ∀ c ∈ r, p c = true) (hpost : headIs p post = false) :
    runsBy p (r ++ post) = r :: runsBy p post := by
  cases r with
  | nil => exact absurd rfl hne
  | cons c r' =>
    rw [List.cons_append, runsBy_cons_pos p c _ (hall c (by simp))]
    rw [takeWhile_append_all p r' post (fun x hx => hall x (by simp [hx]))]
    rw [dropWhile_append_all p r' post (fun x hx => hall x (by simp [hx]))]
    rw [takeWhile_eq_nil_of_headIs p post hpost, dropWhile_eq_self_of_headIs p post hpost]
    rw [List.append_nil]

theorem takeWhile_dropWhile_append_of_last (p : Char → Bool) :
    ∀ (l rest : Str), l ≠ [] → (∀ c, l.getLast? = some c → p c = false) →
      (l ++ rest).takeWhile p = l.takeWhile p ∧
      (l ++ rest).dropWhile p = l.dropWhile p ++ rest := by
  intro l
  induction l with
  | nil => intro rest h _; exact absurd rfl h
  | cons a tl ih =>
    intro rest _ hlast
    cases tl with
    | nil =>
      have hpa : p a = false := hlast a rfl
      have hpa2 : ¬ p a = true := by rw [hpa]; exact Bool.false_ne_true
      constructor
      · rw [List.cons_append, List.takeWhile_cons_of_neg hpa2,
          List.takeWhile_cons_of_neg hpa2]
      · rw [List.cons_append, List.dropWhile_cons_of_neg hpa2,
          List.dropWhile_cons_of_neg hpa2]
        simp
    | cons b tl' =>
      have hlast' : ∀ c, (b :: tl').getLast? = some c → p c = false := by
        intro c hc
        exact hlast c (by rw [List.getLast?_cons_cons]; exact hc)
      obtain ⟨h1, h2⟩ := ih rest (by simp) hlast'
      by_cases hpa : p a = true
      · constructor
        · rw [List.cons_append, List.takeWhile_cons_of_pos hpa, h1,
            List.takeWhile_cons_of_pos hpa]
        · rw [List.cons_append, List.dropWhile_cons_of_pos hpa, h2,
            List.dropWhile_cons_of_pos hpa]
      · constructor
        · rw [List.cons_append, List.takeWhile_cons_of_neg hpa,
            List.takeWhile_cons_of_neg hpa]
        · rw [List.cons_append, List.dropWhile_cons_of_neg hpa,
            List.dropWhile_cons_of_neg hpa, List.cons_append]
          simp

theorem dropWhile_last_of_last (p : Char → Bool) (l : Str) (hne : l ≠ [])
    (hlast : ∀ c, l.getLast? = some c → p c = false) :
    l.dropWhile p ≠ [] ∧
    (∀ c, (l.dropWhile p).getLast? = some c → p c = false) := by
  have hne2 : l.dropWhile p ≠ [] := by
    intro hnil
    rw [List.dropWhile_eq_nil_iff] at hnil
    obtain ⟨c, hc⟩ := getLast?_exists_chars l hne
    have hmem := getLast?_mem_chars l c hc
    have := hnil c hmem
    rw [hlast c hc] at this
    exact Bool.false_ne_true this
  refine ⟨hne2, ?_⟩
  have heq : (l.dropWhile p).getLast? = l.getLast? := by
    conv_rhs => rw [← List.takeWhile_append_dropWhile p l]
    rw [List.getLast?_append]
    obtain ⟨c, hc⟩ := getLast?_exists_chars _ hne2
    rw [hc]
    rfl
  intro c hc
  rw [heq] at hc
  exact hlast c hc

theorem runsBy_append_break_fuel (p : Char → Bool) :
    ∀ (n : Nat) (pre rest : Str), pre.length ≤ n →
      (∀ c, pre.getLast? = some c → p c = false) →
      runsBy p (pre ++ rest) = runsBy p pre ++ runsBy p rest := by
  intro n
  induction n with
  | zero =>
    intro pre rest hlen _
    have hpre : pre = [] := List.length_eq_zero.mp (Nat.le_zero.mp hlen)
    rw [hpre]
    rfl
  | succ n ih =>
    intro pre rest hlen hlast
    cases pre with
    | nil => rfl
    | cons a tl =>
      by_cases ha : p a = true
      · cases tl with
        | nil =>
          have := hlast a rfl
          rw [ha] at this
          exact absurd this.symm Bool.false_ne_true
        | cons b tl' =>
          have hlast' : ∀ c, (b :: tl').getLast? = some c → p c = false := by
            intro c hc
            exact hlast c (by rw [List.getLast?_cons_cons]; exact hc)
          rw [List.cons_append, runsBy_cons_pos p a _ ha, runsBy_cons_pos p a _ ha]
          obtain ⟨htw, hdw⟩ :=
            takeWhile_dropWhile_append_of_last p (b :: tl') rest (by simp) hlast'
          rw [htw, hdw, List.cons_append]
          congr 1
          obtain ⟨hdne, hdlast⟩ := dropWhile_last_of_last p (b :: tl') (by simp) hlast'
          apply ih
          · have := ((b :: tl').dropWhile_sublist p).length_le
            simp only [List.length_cons] at hlen this ⊢
            omega
          · exact hdlast
      · have hstep : ∀ (xs : Str), runsBy p (a :: xs) = runsBy p xs := by
          intro xs
          rw [runsBy_cons_eq, if_neg ha]
        rw [List.cons_append, hstep, hstep]
        cases tl with
        | nil => rfl
        | cons b tl' =>
          apply ih
          · simp only [List.length_cons] at hlen ⊢
            omega
          · intro c hc
            exact hlast c (by rw [List.getLast?_cons_cons]; exact hc)

theorem runsBy_sound_fuel (p : Char → Bool) :
    ∀ (n : Nat) (l : Str), l.length ≤ n → ∀ r ∈ runsBy p l,
      r ≠ [] ∧ (∀ c ∈ r, p c = true) ∧
      ∃ pre post, l = pre ++ r ++ post ∧
        (∀ c, pre.getLast? = some c → p c = false) ∧
        (∀ c, post.head? = some c → p c = false) := by
  intro n
  induction n with
  | zero =>
    intro l hlen r hr
    have hl : l = [] := List.length_eq_zero.mp (Nat.le_zero.mp hlen)
    rw [hl] at hr
    cases hr
  | succ n ih =>
    intro l hlen r hr
    cases l with
    | nil => cases hr
    | cons c cs =>
      by_cases hc : p c = true
      · rw [runsBy_cons_pos p c cs hc] at hr
        rcases List.mem_cons.mp hr with hr | hr
        · refine ⟨by rw [hr]; exact List.cons_ne_nil _ _, ?_, [], cs.dropWhile p, ?_, ?_, ?_⟩
          · intro x hx
            rw [hr] at hx
            rcases List.mem_cons.mp hx with hx | hx
            · rw [hx]
              exact hc
            · exact List.mem_takeWhile_imp hx
          · rw [hr, List.nil_append, List.cons_append, List.takeWhile_append_dropWhile]
          · intro x hx
            cases hx
          · intro x hx
            exact head?_dropWhile_false p cs x hx
        · have hlen2 : (cs.dropWhile p).length ≤ n := by
            have := (cs.dropWhile_sublist p).length_le
            simp only [List.length_cons] at hlen
            omega
          obtain ⟨hne, hall, pre, post, heq, hpre, hpost⟩ := ih (cs.dropWhile p) hlen2 r hr
          refine ⟨hne, hall, (c :: cs.takeWhile p) ++ pre, post, ?_, ?_, hpost⟩
          · simp only [List.append_assoc, List.cons_append]
            rw [← List.append_assoc pre r post, ← heq, List.takeWhile_append_dropWhile]
          · intro x hx
            cases hpre0 : pre with
            | nil =>
              exfalso
              rw [hpre0, List.nil_append] at heq
              cases hr0 : r with
              | nil => exact hne hr0
              | cons rc rr =>
                have hhead : (cs.dropWhile p).head? = some rc := by
                  rw [heq, hr0]
                  rfl
                have hfalse := head?_dropWhile_false p cs rc hhead
                have htrue := hall rc (by rw [hr0]; exact List.mem_cons_self _ _)
                rw [hfalse] at htrue
                exact Bool.false_ne_true htrue
            | cons q qs =>
              rw [hpre0] at hx
              rw [List.getLast?_append] at hx
              obtain ⟨d, hd⟩ := getLast?_exists_chars (q :: qs) (by simp)
              rw [hd] at hx
              cases hx
              exact hpre x (by rw [hpre0]; exact hd)
      · have hstep : runsBy p (c :: cs) = runsBy p cs := by
          rw [runsBy_cons_eq, if_neg hc]
        rw [hstep] at hr
        have hlen2 : cs.length ≤ n := by
          simp only [List.length_cons] at hlen
          omega
        obtain ⟨hne, hall, pre, post, heq, hpre, hpost⟩ := ih cs hlen2 r hr
        refine ⟨hne, hall, c :: pre, post, by rw [heq]; simp, ?_, hpost⟩
        intro x hx
        cases hpre0 : pre with
        | nil =>
          rw [hpre0] at hx
          simp only [List.getLast?_singleton, Option.some.injEq] at hx
          rw [← hx]
          rw [Bool.eq_false_iff]
          intro hcx
          exact absurd hcx hc
        | cons q qs =>
          rw [hpre0, List.getLast?_cons_cons] at hx
          exact hpre x (by rw [hpre0]; exact hx)

/-- Claim C6 amended: the tokens of a title are exactly the maximal
word-character runs of the lower-cased title that consist solely of
lower-case letters, have length at least 4 and are not stopwords; an
alphabetic run adjacent to a digit or an underscore has no word boundary
there and is not extracted. -/
theorem c6_tokens_amended (title w : Str) :
    w ∈ tokenize_title title ↔
      (4 ≤ w.length ∧ (∀ c ∈ w, Char.isLower c = true) ∧ w ∉ stopwords ∧
       ∃ pre post, toLower title = pre ++ w ++ post ∧
         (∀ c, pre.getLast? = some c → isWordChar c = false) ∧
         (∀ c, post.head? = some c → isWordChar c = false)) := by
  constructor
  · intro hw
    unfold tokenize_title reTokens at hw
    rw [List.mem_filter] at hw
    obtain ⟨hw, hstop⟩ := hw
    rw [List.mem_filter] at hw
    obtain ⟨hruns, hcond⟩ := hw
    rw [Bool.and_eq_true, decide_eq_true_eq, List.all_eq_true] at hcond
    obtain ⟨h4, hlow⟩ := hcond
    obtain ⟨hne, hall, pre, post, heq, hpre, hpost⟩ :=
      runsBy_sound_fuel isWordChar (toLower title).length (toLower title) le_rfl w hruns
    refine ⟨h4, hlow, ?_, pre, post, heq, hpre, hpost⟩
    intro hmem
    have h1 : stopwords.contains w = true := by simpa using hmem
    rw [Bool.not_eq_true', h1] at hstop
    cases hstop
  · rintro ⟨h4, hlow, hstop, pre, post, heq, hpre, hpost⟩
    have hall : ∀ c ∈ w, isWordChar c = true := by
      intro c hc
      have hl := hlow c hc
      simp [isWordChar, Char.isAlpha, hl]
    have hne : w ≠ [] := by
      intro h0
      rw [h0] at h4
      simp at h4
    have hpost2 : headIs isWordChar post = false := by
      cases post with
      | nil => rfl
      | cons d ds => exact hpost d rfl
    have hsplit : runsBy isWordChar (toLower title)
        = runsBy isWordChar pre ++ (w :: runsBy isWordChar post) := by
      rw [heq, List.append_assoc,
        runsBy_append_break_fuel isWordChar pre.length pre (w ++ post) le_rfl hpre,
        runsBy_run_head isWordChar w post hne hall hpost2]
    unfold tokenize_title reTokens
    rw [List.mem_filter]
    constructor
    · rw [List.mem_filter]
      constructor
      · rw [hsplit]
        exact List.mem_append_right _ (List.mem_cons_self _ _)
      · rw [Bool.and_eq_true, decide_eq_true_eq]
        exact ⟨h4, List.all_eq_true.mpr hlow⟩
    · simpa using hstop

/-- Claim C6 counterexample: in the title Parser crash42night on startup
the alphabetic runs crash and night have length at least 4 and are not
stopwords, yet the tokenizer does not extract them, because they touch the
digits and so have no word boundary; the claimed token sequence (built by
specAlphaTokens from the claim wording) differs from the computed one. -/
theorem c6_counterexample :
    tokenize_title (("Parser crash42night on startup").data)
      = [("parser").data, ("startup").data] ∧
    specAlphaTokens (("Parser crash42night on startup").data)
      = [("parser").data, ("crash").data, ("night").data, ("startup").data] ∧
    tokenize_title (("Parser crash42night on startup").data)
      ≠ specAlphaTokens (("Parser crash42night on startup").data) := by decide

theorem c6_tokens_amended_witness :
    4 ≤ (("parser").data : Str).length ∧
    (∀ c ∈ (("parser").data : Str), Char.isLower c = true) ∧
    (("parser").data : Str) ∉ stopwords ∧
    ∃ pre post, toLower (("Parser crash42night on startup").data) = pre ++ ("parser").data ++ post ∧
      (∀ c, pre.getLast? = some c → isWordChar c = false) ∧
      (∀ c, post.head? = some c → isWordChar c = false) :=
  (c6_tokens_amended (("Parser crash42night on startup").data) (("parser").data)).mp
    (by decide)
